import Mathlib

/-!
Shallow embedding of the path-resolution and content-caching layer of
`gofilepyfs` (files `gofilepyfs/__init__.py`, `gofilepyfs/decorators.py`,
`gofilepyfs/exceptions.py`).

Modelling conventions:
* A remote content node (`GofileContent`, i.e. `GofileFile` / `GofileFolder`)
  is the inductive `Content`: a tagged variant with `kind`, `name`,
  `time_created`, the local `_when_updated` annotation, and `children`
  (meaningful only for folders; always `[]` for files).
* Timestamps (`datetime`) are `Nat`; the fixed TTL `_UPDATE_AFTER`
  (15 seconds) is the literal `15`.
* The remote collaborator (`content.reload()`) is an explicit environment
  function `Env.reload : Content → ReloadResult`.  Python mutates the node
  in place; here `reload` returns the node's post-reload value.  `Env.now`
  is the value `dt.datetime.now()` returns during the call.
* Exceptions are `Except`: the collaborator's
  `GofileAPIContentNotFoundError` is `ReloadResult.notFound`, any other
  exception is `ReloadResult.err e` with an opaque code `e : Nat`,
  propagated as `Except.error e`.
* Python `sorted`/`list.sort` are stable sorts; they are embedded as
  `List.mergeSort` (also stable) with the boolean `≤` on the sort key.
* Path strings are `List Char` with separator `'/'` (posixpath).
-/

namespace Gofile

inductive Kind where
  | file
  | folder
deriving DecidableEq, Repr

/-- A remote content node (`GofileContent`).  `children` is the cached child
list (only meaningful when `kind = .folder`); `when_updated` is the local
`_when_updated` staleness annotation (`none` when the attribute is absent). -/
inductive Content where
  | mk (kind : Kind) (name : String) (time_created : Nat)
       (when_updated : Option Nat) (children : List Content)
deriving Repr

def Content.kind : Content → Kind
  | .mk k _ _ _ _ => k

def Content.name : Content → String
  | .mk _ n _ _ _ => n

def Content.time_created : Content → Nat
  | .mk _ _ t _ _ => t

def Content.when_updated : Content → Option Nat
  | .mk _ _ _ w _ => w

def Content.children : Content → List Content
  | .mk _ _ _ _ ch => ch

/-- `GofileContent.is_file_type`: `True` for files, `False` for folders. -/
def Content.is_file_type (c : Content) : Bool :=
  c.kind == .file

/-- `content._when_updated = w` (the annotation is set after a successful
reload; the rest of the node is unchanged by that assignment). -/
def Content.set_when_updated (c : Content) (w : Option Nat) : Content :=
  match c with
  | .mk k n t _ ch => .mk k n t w ch

/-- Outcome of the remote collaborator's `content.reload()` call. -/
inductive ReloadResult where
  | ok (c : Content)
  | notFound
  | err (e : Nat)

/-- The ambient state a call runs in: the current wall-clock time and the
remote collaborator's reload behaviour. -/
structure Env where
  now : Nat
  reload : Content → ReloadResult

/-- `GofileFSClient._UPDATE_AFTER = dt.timedelta(seconds=15)`. -/
def UPDATE_AFTER : Nat := 15

/-- `GofileFSClient.ensure_updated`, instrumented: the second component is
`true` iff `content.reload()` was invoked.

```
if content is None: return None
when_updated = getattr(content, '_when_updated', None)
if when_updated is None or dt.datetime.now() > when_updated + cls._UPDATE_AFTER:
    try:
        content.reload()
    except GofileAPIContentNotFoundError:
        return None
    content._when_updated = dt.datetime.now()
return content
```
-/
def ensure_updatedT (env : Env) : Option Content → Except Nat (Option Content) × Bool
  | none => (.ok none, false)
  | some content =>
    let stale : Bool :=
      match content.when_updated with
      | none => true
      | some w => decide (env.now > w + UPDATE_AFTER)
    if stale then
      match env.reload content with
      | .ok c => (.ok (some (c.set_when_updated (some env.now))), true)
      | .notFound => (.ok none, true)
      | .err e => (.error e, true)
    else
      (.ok (some content), false)

/-- `GofileFSClient.ensure_updated` (result only). -/
def ensure_updated (env : Env) (c : Option Content) : Except Nat (Option Content) :=
  (ensure_updatedT env c).1

/-- The staleness condition of claim C2: the last-refresh annotation is
absent, or the current time exceeds it by more than the fixed 15-second TTL. -/
def StaleSpec (now : Nat) (c : Content) : Prop :=
  c.when_updated = none ∨ ∃ w, c.when_updated = some w ∧ now > w + 15

/-- The three-component sort key of `_get_children`:
`(ch.is_file_type, ch.name, ch.time_created)` compared lexicographically
(Python tuple comparison, `False < True` on booleans). -/
def le3 (a b : Content) : Prop :=
  (a.is_file_type = false ∧ b.is_file_type = true) ∨
  (a.is_file_type = b.is_file_type ∧
    (a.name < b.name ∨ (a.name = b.name ∧ a.time_created ≤ b.time_created)))

/-- The two-component re-sort key of `get_children`:
`(ch.is_file_type, ch.name)` compared lexicographically. -/
def le2 (a b : Content) : Prop :=
  (a.is_file_type = false ∧ b.is_file_type = true) ∨
  (a.is_file_type = b.is_file_type ∧ a.name ≤ b.name)

instance : DecidableRel le3 := fun a b => by unfold le3; infer_instance

instance : DecidableRel le2 := fun a b => by unfold le2; infer_instance

/-- The in-place-mutation aliasing of the `_update_folder` decorator
(`decorators.with_defaults` injecting the default folder, then
`self.ensure_updated(kwargs.get('folder'))` with the return value discarded):
a successful reload mutates the very node object held in `kwargs`, so the
wrapped method sees the reloaded node; when `ensure_updated` returns `None`
(content-not-found eviction) the unmutated original is still in `kwargs`.
Any other reload exception propagates out of the wrapper. -/
def update_folder (env : Env) (folder : Content) : Except Nat Content := do
  let r ← ensure_updated env (some folder)
  pure (r.getD folder)

/-- The body of `GofileFSClient._get_children`:
`sorted(folder.children, key=lambda ch: (ch.is_file_type, ch.name, ch.time_created))`.
Python's `sorted` is the stable sort by that key; it is embedded as the
(equally stable, structurally recursive) insertion sort by `le3`. -/
def sort_children (folder : Content) : List Content :=
  folder.children.insertionSort le3

/-- `GofileFSClient._get_children` together with its `_update_folder`
decorator. -/
def _get_children (env : Env) (folder : Content) : Except Nat (List Content) := do
  let f ← update_folder env folder
  pure (sort_children f)

/-- `GofileFSClient.get_content`: filter the sorted children to the matching
name and return the last match (`filtered[-1]`), or `None` when there is no
match. -/
def get_content (env : Env) (folder : Content) (name : String) :
    Except Nat (Option Content) := do
  let children ← _get_children env folder
  pure ((children.filter fun ch => ch.name == name).getLast?)

/-- The per-name survivor selection and final two-key re-sort of
`GofileFSClient.get_children`, parameterised by the enumeration order of the
intermediate name set (`set([ch.name for ch in children])` iterates in an
unspecified order).  For each name the survivor is
`[ch for ch in children if ch.name == name][-1]`. -/
def select_by_names (children : List Content) (names : List String) : List Content :=
  (names.filterMap fun n =>
    (children.filter fun ch => ch.name == n).getLast?).insertionSort le2

/-- `GofileFSClient.get_children`, with the name set enumerated as the
deduplicated child-name list (claim C5 shows the result is independent of
that enumeration order). -/
def get_children (env : Env) (folder : Content) : Except Nat (List Content) := do
  let children ← _get_children env folder
  pure (select_by_names children (children.map (fun ch => ch.name)).dedup)

theorem set_when_updated_when_updated (c : Content) (w : Option Nat) :
    (c.set_when_updated w).when_updated = w := by
  cases c
  rfl

/-- A stale node's TTL test (the condition of line 70 of `__init__.py`)
evaluates to `true`. -/
theorem stale_match_true {now : Nat} {c : Content} (hstale : StaleSpec now c) :
    (match c.when_updated with
      | none => true
      | some w => decide (now > w + UPDATE_AFTER)) = true := by
  rcases hstale with h | ⟨w, hw, hgt⟩
  · rw [h]
  · rw [hw]
    simp [UPDATE_AFTER]
    omega

/-- Converse of the TTL test: if the boolean staleness condition holds, the
node satisfies `StaleSpec`. -/
theorem stale_of_match_true {now : Nat} {c : Content}
    (h : (match c.when_updated with
      | none => true
      | some w => decide (now > w + UPDATE_AFTER)) = true) :
    StaleSpec now c := by
  cases hw : c.when_updated with
  | none => exact Or.inl hw
  | some w =>
    rw [hw] at h
    refine Or.inr ⟨w, hw, ?_⟩
    have := of_decide_eq_true h
    simpa [UPDATE_AFTER] using this

/-- A node within the TTL is returned unchanged with no reload call. -/
theorem fresh_no_reload {env : Env} {c : Content}
    (hfresh : ¬ StaleSpec env.now c) :
    ensure_updatedT env (some c) = (.ok (some c), false) := by
  have hst : ¬ (match c.when_updated with
      | none => true
      | some w => decide (env.now > w + UPDATE_AFTER)) = true :=
    fun h => hfresh (stale_of_match_true h)
  simp only [ensure_updatedT]
  rw [if_neg hst]

/-- Any node coming out of a successful `ensure_updated` is within the TTL
at the same instant. -/
theorem ensure_updated_fresh_out {env : Env} {c : Option Content} {d : Content}
    (h : ensure_updated env c = .ok (some d)) :
    ¬ StaleSpec env.now d := by
  cases c with
  | none => exact absurd (Except.ok.inj h) (by simp)
  | some c0 =>
    simp only [ensure_updated, ensure_updatedT] at h
    by_cases hst : (match c0.when_updated with
        | none => true
        | some w => decide (env.now > w + UPDATE_AFTER)) = true
    · rw [if_pos hst] at h
      cases hr : env.reload c0 with
      | ok c' =>
        rw [hr] at h
        obtain rfl : c'.set_when_updated (some env.now) = d :=
          Option.some.inj (Except.ok.inj h)
        rintro (hnone | ⟨w, hw, hgt⟩)
        · rw [set_when_updated_when_updated] at hnone
          exact Option.noConfusion hnone
        · rw [set_when_updated_when_updated] at hw
          have hwn : env.now = w := Option.some.inj hw
          omega
      | notFound =>
        rw [hr] at h
        exact absurd (Except.ok.inj h) (by simp)
      | err e =>
        rw [hr] at h
        exact Except.noConfusion h
    · rw [if_neg hst] at h
      obtain rfl : c0 = d := Option.some.inj (Except.ok.inj h)
      intro hstale
      exact hst (stale_match_true hstale)

/-- Refreshing the node returned by a successful `ensure_updated` again at
the same instant is a no-op (so e.g. the second `_update_content` refresh
performed by `is_dir()` right after `exists()` does not change the info). -/
theorem ensure_updated_idem {env : Env} {c : Option Content} {d : Content}
    (h : ensure_updated env c = .ok (some d)) :
    ensure_updated env (some d) = .ok (some d) := by
  have hf := ensure_updated_fresh_out h
  unfold ensure_updated
  rw [fresh_no_reload hf]

/-- Concrete duplicate-name folder: two children named `"a"`, a Folder
created at t=2 and a File created at t=1 (both freshly refreshed). -/
def folderA2 : Content := .mk .folder "a" 2 (some 0) []

def fileA1 : Content := .mk .file "a" 1 (some 0) []

def rootAB : Content := .mk .folder "root" 0 (some 0) [folderA2, fileA1]

/-- An environment in which nothing is stale at `now = 0` and any reload
attempt would raise a generic error (so a reload call cannot go unnoticed). -/
def envFresh : Env := ⟨0, fun _ => .err 0⟩

/-- The ordering claim C5 states for the final listing: every Folder entry
precedes every File entry, and within one kind entries are in strictly
increasing lexical name order. -/
def FoldersFirstThenName (a b : Content) : Prop :=
  (a.is_file_type = false ∧ b.is_file_type = true) ∨
  (a.is_file_type = b.is_file_type ∧ a.name < b.name)

instance : IsTotal Content le2 := by
  constructor
  intro a b
  unfold le2
  rcases le_total a.name b.name with h | h
  · cases ha : a.is_file_type <;> cases hb : b.is_file_type <;> simp [h]
  · cases ha : a.is_file_type <;> cases hb : b.is_file_type <;> simp [h]

instance : IsTrans Content le2 := by
  constructor
  intro a b c hab hbc
  unfold le2 at *
  rcases hab with ⟨ha, hb⟩ | ⟨hab, hnab⟩ <;> rcases hbc with ⟨hb', hc⟩ | ⟨hbc, hnbc⟩
  · rw [hb] at hb'; exact absurd hb' (by simp)
  · exact Or.inl ⟨ha, hbc ▸ hb⟩
  · exact Or.inl ⟨hab ▸ hb', hc⟩
  · exact Or.inr ⟨hab.trans hbc, hnab.trans hnbc⟩

/-- The per-name survivor `[ch for ch in children if ch.name == n][-1]`
carries exactly the looked-up name. -/
theorem survivor_name {children : List Content} {n : String} {x : Content}
    (h : (children.filter fun ch => ch.name == n).getLast? = some x) :
    x.name = n := by
  have hx := List.mem_of_getLast?_eq_some h
  exact eq_of_beq (List.mem_filter.1 hx).2

/-- Survivors selected from a duplicate-free name list have pairwise distinct
names. -/
theorem survivors_names_pairwise {children : List Content} {names : List String}
    (hnd : names.Nodup) :
    List.Pairwise (fun a b : Content => a.name ≠ b.name)
      (names.filterMap fun n =>
        (children.filter fun ch => ch.name == n).getLast?) := by
  refine List.Pairwise.filterMap _ ?_ hnd
  intro n m hnm x hx y hy
  rw [survivor_name hx, survivor_name hy]
  exact hnm

/-- Two sorted-by-`le2` permutations of each other with pairwise distinct
names are equal. -/
theorem sorted_nodup_names_eq {l₁ l₂ : List Content}
    (hp : l₁.Perm l₂)
    (hs₁ : List.Sorted le2 l₁) (hs₂ : List.Sorted le2 l₂)
    (hn₁ : List.Pairwise (fun a b : Content => a.name ≠ b.name) l₁)
    (hn₂ : List.Pairwise (fun a b : Content => a.name ≠ b.name) l₂) : l₁ = l₂ := by
  haveI : IsAntisymm Content (fun a b => le2 a b ∧ a.name ≠ b.name) := by
    constructor
    rintro a b ⟨hab, hne⟩ ⟨hba, -⟩
    exfalso
    apply hne
    rcases hab with ⟨ha, hb⟩ | ⟨heq, hab⟩
    · rcases hba with ⟨hb', ha'⟩ | ⟨heq', hba⟩
      · rw [hb] at hb'
        exact absurd hb' (by simp)
      · rw [ha, hb] at heq'
        exact absurd heq' (by simp)
    · rcases hba with ⟨hb', ha'⟩ | ⟨heq', hba⟩
      · rw [hb', ha'] at heq
        exact absurd heq (by simp)
      · exact le_antisymm hab hba
  exact List.eq_of_perm_of_sorted (r := fun a b => le2 a b ∧ a.name ≠ b.name) hp
    (hs₁.and hn₁) (hs₂.and hn₂)

/-- `select_by_names` is sorted by `le2` and its entries have pairwise
distinct names (when the name list is duplicate-free). -/
theorem select_by_names_sorted (children : List Content) (names : List String)
    (hnd : names.Nodup) :
    List.Sorted le2 (select_by_names children names) ∧
    List.Pairwise (fun a b : Content => a.name ≠ b.name)
      (select_by_names children names) := by
  constructor
  · exact List.sorted_insertionSort le2 _
  · exact ((List.perm_insertionSort le2 _).pairwise_iff
      (fun h => h.symm)).2 (survivors_names_pairwise hnd)

/-- `GofilePathInfo.exists` with its `_update_content` decorator
(`self.content = self.fs_client.ensure_updated(self.content)` before the
body runs; every info produced by resolution carries an `fs_client`).
Queries return their answer together with the updated `content` field. -/
def info_exists (env : Env) (c : Option Content) :
    Except Nat (Bool × Option Content) := do
  let c' ← ensure_updated env c
  pure (c'.isSome, c')

/-- `isinstance(content, GofileFolder)`. -/
def is_dir_answer : Option Content → Bool
  | some c => c.kind == .folder
  | none => false

/-- `isinstance(content, GofileFile)`. -/
def is_file_answer : Option Content → Bool
  | some c => c.kind == .file
  | none => false

/-- `GofilePathInfo.is_dir` with its `_update_content` decorator. -/
def info_is_dir (env : Env) (c : Option Content) :
    Except Nat (Bool × Option Content) := do
  let c' ← ensure_updated env c
  pure (is_dir_answer c', c')

/-- `GofilePathInfo.is_file` with its `_update_content` decorator. -/
def info_is_file (env : Env) (c : Option Content) :
    Except Nat (Bool × Option Content) := do
  let c' ← ensure_updated env c
  pure (is_file_answer c', c')

/-- `GofilePathInfo.is_symlink`: `return False` — the method carries no
`_update_content` decorator, so the content field is untouched. -/
def info_is_symlink (_env : Env) (c : Option Content) :
    Except Nat (Bool × Option Content) :=
  .ok (false, c)

/-- `GofilePathInfo.children_names` (property): `_update_content`, then the
names of `get_children` when the refreshed content is a folder, else `None`. -/
def children_names (env : Env) (c : Option Content) :
    Except Nat (Option (List String) × Option Content) := do
  let c' ← ensure_updated env c
  match c' with
  | some node =>
    if node.kind = .folder then do
      let l ← get_children env node
      pure (some (l.map fun ch => ch.name), c')
    else
      pure (none, c')
  | none => pure (none, c')

/-- The result of resolving a path: `MissingInfo` (all queries `False`,
never refreshes) or a `GofilePathInfo` wrapping an optional content. -/
inductive RInfo where
  | missing
  | info (content : Option Content)

/-- `PathInfo.exists` dispatched on the class of the resolved info:
`MissingInfo.exists` is plain `False` with no refresh. -/
def rexists (env : Env) : RInfo → Except Nat (Bool × RInfo)
  | .missing => .ok (false, .missing)
  | .info c => (info_exists env c).map fun bc => (bc.1, .info bc.2)

/-- `PathInfo.is_dir` dispatched on the class of the resolved info. -/
def ris_dir (env : Env) : RInfo → Except Nat (Bool × RInfo)
  | .missing => .ok (false, .missing)
  | .info c => (info_is_dir env c).map fun bc => (bc.1, .info bc.2)

def sep : Char := '/'

/-- `name, _, path = path.partition(self.parser.sep)`: the text before the
first separator and the text after it (empty when there is no separator). -/
def partitionSep : List Char → List Char × List Char
  | [] => ([], [])
  | c :: cs =>
    if c = sep then ([], cs)
    else
      let nr := partitionSep cs
      (c :: nr.1, nr.2)

theorem partitionSep_rest_le : ∀ p : List Char, (partitionSep p).2.length ≤ p.length
  | [] => by simp [partitionSep]
  | c :: cs => by
    simp only [partitionSep]
    split
    · simp
    · have := partitionSep_rest_le cs
      simpa using Nat.le_succ_of_le this

theorem partitionSep_rest_lt (c : Char) (cs : List Char) :
    (partitionSep (c :: cs)).2.length < (c :: cs).length := by
  simp only [partitionSep]
  split
  · simp
  · have := partitionSep_rest_le cs
    simpa using Nat.lt_succ_of_le this

/-- `GofilePathInfo.resolve` (lines 127-140 of `__init__.py`):

```
if path in ('', '.'): return self
name, _, path = path.partition(self.parser.sep)
info = None
if not name:
    info = self
elif isinstance(self.content, GofileFolder):
    content = self.fs_client.get_content(self.content, name)
    if content is not None:
        info = GofilePathInfo(self.parser, content=content, fs_client=self.fs_client)
if info is None:
    return MissingInfo()
return info.resolve(path)
```
A raised exception from `get_content` (reload failure) propagates. -/
def resolveInfo (env : Env) (c : Option Content) (p : List Char) :
    Except Nat RInfo :=
  if h : p = [] ∨ p = ['.'] then .ok (.info c)
  else
    if (partitionSep p).1 = [] then resolveInfo env c (partitionSep p).2
    else
      match c with
      | some node =>
        if node.kind = .folder then
          match get_content env node (String.mk (partitionSep p).1) with
          | .error e => .error e
          | .ok (some child) => resolveInfo env (some child) (partitionSep p).2
          | .ok none => .ok .missing
        else .ok .missing
      | none => .ok .missing
termination_by p.length
decreasing_by
  all_goals
    cases p with
    | nil => exact absurd (Or.inl rfl) h
    | cons hd tl => exact partitionSep_rest_lt hd tl

/-- The three path-level error classes of `exceptions.py`, each carrying the
offending path, together with a propagated collaborator exception. -/
inductive PathErr where
  | pathNotFound (path : List Char)
  | pathNotADirectory (path : List Char)
  | pathNotAFile (path : List Char)
  | api (e : Nat)

def liftApi {α : Type} : Except Nat α → Except PathErr α
  | .error e => .error (.api e)
  | .ok a => .ok a

/-- `GofilePath.iterdir` operating on the info resolved for the path
(`self.info`): existence check, then directory check, then the children
names that generate the child paths; `str(self)` is carried on each raised
error.  The second `self.info` of line 217 is represented by the
already-validated info: `is_dir()` returning `True` means the info is a
`GofilePathInfo` holding a folder, so the `.missing` branch and the `None`
default are vacuous. -/
def iterdir (env : Env) (path : List Char) (i : RInfo) :
    Except PathErr (List String) := do
  let (ex, i1) ← liftApi (rexists env i)
  if !ex then throw (.pathNotFound path)
  let (d, i2) ← liftApi (ris_dir env i1)
  if !d then throw (.pathNotADirectory path)
  match i2 with
  | .info c => do
    let r ← liftApi (children_names env c)
    pure (r.1.getD [])
  | .missing => throw (.pathNotADirectory path)

/-- `GofilePath.__open_reader__` operating on the info resolved for the
path: existence check (refreshing), then the direct
`isinstance(info.content, GofileFile)` check with no further refresh
(`None` and missing contents are not `GofileFile` instances), then the
download handle (modelled as the file node itself). -/
def open_reader (env : Env) (path : List Char) (i : RInfo) :
    Except PathErr Content := do
  let (ex, i1) ← liftApi (rexists env i)
  if !ex then throw (.pathNotFound path)
  match i1 with
  | .info (some c) =>
    if c.kind = .file then pure c
    else throw (.pathNotAFile path)
  | _ => throw (.pathNotAFile path)

/-- Concrete one-child folder for the resolution examples: a folder `"r"`
holding a single file `"x"`, both freshly refreshed. -/
def fileX : Content := .mk .file "x" 1 (some 0) []

def folderR : Content := .mk .folder "r" 0 (some 0) [fileX]

/-- A stale (never-refreshed) file in front of an evicting collaborator. -/
def staleS : Content := .mk .file "s" 1 none []

def envEvict : Env := ⟨0, fun _ => .notFound⟩

/-- Python `str.split(sep)`: the slash-separated components of a string,
always at least one (splitting the empty string gives `[""]`). -/
def splitOnSep : List Char → List (List Char)
  | [] => [[]]
  | c :: cs =>
    if c = sep then [] :: splitOnSep cs
    else
      match splitOnSep cs with
      | h :: t => (c :: h) :: t
      | [] => [[c]]

/-- `sep.join(comps)`. -/
def joinComps : List (List Char) → List Char
  | [] => []
  | [c] => c
  | c :: cs => c ++ sep :: joinComps cs

/-- The accumulation loop of `posixpath.join`: a later part starting with
the separator replaces the accumulated path; otherwise it is appended,
inserting a separator unless the path is empty or already ends with one. -/
def pjoinAcc (path : List Char) : List (List Char) → List Char
  | [] => path
  | b :: rest =>
    if b.head? = some sep then pjoinAcc b rest
    else if path = [] ∨ path.getLast? = some sep then pjoinAcc (path ++ b) rest
    else pjoinAcc (path ++ sep :: b) rest

/-- `GofilePath._joined_segments`: `''` when there are no segments, else
`posixpath.join(*segments)`. -/
def joined_segments : List (List Char) → List Char
  | [] => []
  | a :: rest => pjoinAcc a rest

/-- `posixpath.splitroot` (the drive is always empty on POSIX, it is
omitted).  Mirrors the slice conditions: not absolute → no root;
`p[1:2] != sep or p[2:3] == sep` → root `'/'`; else root `'//'`. -/
def splitrootF (p : List Char) : List Char × List Char :=
  if p.take 1 ≠ [sep] then ([], p)
  else if (p.drop 1).take 1 ≠ [sep] ∨ (p.drop 2).take 1 = [sep] then
    ([sep], p.drop 1)
  else ([sep, sep], p.drop 2)

/-- `posixpath.isabs`. -/
def isabs (p : List Char) : Bool :=
  p.head? == some sep

/-- The `initial_slashes` computation of `posixpath.normpath`: 2 for exactly
two leading separators, 1 for one or three-plus, 0 when relative. -/
def initialSlashes (p : List Char) : Nat :=
  if isabs p then
    if p.take 2 = [sep, sep] ∧ ¬ p.take 3 = [sep, sep, sep] then 2 else 1
  else 0

/-- The component loop of `posixpath.normpath`: empty and `.` components
are skipped; a component is appended unless it is a `..` that cancels a
previously kept real component (a leading `..` is kept on relative paths
and dropped on absolute ones). -/
def normComps (slashes : Nat) (acc : List (List Char)) :
    List (List Char) → List (List Char)
  | [] => acc
  | comp :: rest =>
    if comp = [] ∨ comp = ['.'] then normComps slashes acc rest
    else if comp ≠ ['.', '.'] ∨ (slashes = 0 ∧ acc = []) ∨
        (acc ≠ [] ∧ acc.getLast? = some ['.', '.']) then
      normComps slashes (acc ++ [comp]) rest
    else if acc ≠ [] then normComps slashes acc.dropLast rest
    else normComps slashes acc rest

/-- `posixpath.normpath`. -/
def normpath (p : List Char) : List Char :=
  if p = [] then ['.']
  else
    let nc := normComps (initialSlashes p) [] (splitOnSep p)
    let out := List.replicate (initialSlashes p) sep ++ joinComps nc
    if out = [] then ['.'] else out

/-- `GofilePath.__vfspath__` (lines 180-190): join the segments (an empty
join normalizes to `'.'`), split the root off, drop empty and `.`
components from the remainder, and rejoin (falling back to `'.'`). -/
def vfspathF (segs : List (List Char)) : List Char :=
  let path := joined_segments segs
  if path = [] then ['.']
  else
    let parsed := (splitrootF path).1 ++
      joinComps ((splitOnSep (splitrootF path).2).filter
        fun x => decide (¬ (x = [] ∨ x = ['.'])))
    if parsed = [] then ['.'] else parsed

/-- `GofilePath.resolve` (lines 192-196): normalize the textual form
(`str(self)` is `__vfspath__`), force it absolute by
`join(sep, res)` when needed; the result is the single segment of the
returned path. -/
def resolveF (segs : List (List Char)) : List Char :=
  let res := normpath (vfspathF segs)
  if isabs res then res else joined_segments [[sep], res]

theorem splitOnSep_ne_nil : ∀ p : List Char, splitOnSep p ≠ []
  | [] => by simp [splitOnSep]
  | c :: cs => by
    simp only [splitOnSep]
    split
    · simp
    · split <;> simp

/-- Splitting distributes over an explicitly separated concatenation. -/
theorem splitOnSep_append_sep : ∀ a b : List Char,
    splitOnSep (a ++ sep :: b) = splitOnSep a ++ splitOnSep b
  | [], b => by simp [splitOnSep]
  | c :: cs, b => by
    by_cases hc : c = sep
    · subst hc
      rw [show (sep :: cs) ++ sep :: b = sep :: (cs ++ sep :: b) from rfl]
      rw [splitOnSep]
      rw [if_pos rfl]
      rw [splitOnSep_append_sep cs b]
      rw [show splitOnSep (sep :: cs) = [] :: splitOnSep cs from by
        rw [splitOnSep, if_pos rfl]]
      rfl
    · obtain ⟨h0, t0, hcs⟩ : ∃ h0 t0, splitOnSep cs = h0 :: t0 := by
        cases hcs' : splitOnSep cs with
        | nil => exact absurd hcs' (splitOnSep_ne_nil cs)
        | cons x y => exact ⟨x, y, rfl⟩
      rw [show (c :: cs) ++ sep :: b = c :: (cs ++ sep :: b) from rfl]
      rw [splitOnSep]
      rw [if_neg hc]
      rw [splitOnSep_append_sep cs b, hcs]
      rw [show splitOnSep (c :: cs) = (c :: h0) :: t0 from by
        rw [splitOnSep, if_neg hc, hcs]]
      rfl

/-- A non-absolute path has no root. -/
theorem splitroot_not_abs {p : List Char} (h : p.head? ≠ some sep) :
    splitrootF p = ([], p) := by
  have h1 : p.take 1 ≠ [sep] := by
    cases p with
    | nil => simp
    | cons c cs =>
      intro hh
      simp only [List.take] at hh
      apply h
      simp only [List.head?]
      rw [List.cons.inj hh |>.1]
  unfold splitrootF
  rw [if_pos h1]

/-- A segment all of whose components are `.` does not start with the
separator. -/
theorem trivseg_head {b : List Char} (h : ∀ c ∈ splitOnSep b, c = ['.']) :
    b.head? ≠ some sep := by
  cases b with
  | nil => simp
  | cons c cs =>
    intro hc
    have hcs : c = sep := by
      simp only [List.head?] at hc
      injection hc
    subst hcs
    have h0 : ([] : List Char) ∈ splitOnSep (sep :: cs) := by
      simp [splitOnSep]
    have := h [] h0
    exact absurd this (by simp)

/-- All components of `p` are empty or `.`, and `p` does not start with the
separator. -/
def TrivPath (p : List Char) : Prop :=
  (∀ c ∈ splitOnSep p, c = [] ∨ c = ['.']) ∧ p.head? ≠ some sep

theorem trivPath_nil : TrivPath [] := by
  constructor
  · intro c hc
    simp [splitOnSep] at hc
    exact Or.inl hc
  · simp

theorem trivPath_of_seg {s : List Char}
    (h : s = [] ∨ ∀ c ∈ splitOnSep s, c = ['.']) : TrivPath s := by
  rcases h with rfl | h
  · exact trivPath_nil
  · exact ⟨fun c hc => Or.inr (h c hc), trivseg_head h⟩

/-- The join loop preserves triviality: appending only empty or all-`.`
segments keeps every component empty or `.` and the path relative. -/
theorem trivPath_pjoinAcc {path : List Char} (hp : TrivPath path) :
    ∀ rest : List (List Char),
      (∀ s ∈ rest, s = [] ∨ ∀ c ∈ splitOnSep s, c = ['.']) →
      TrivPath (pjoinAcc path rest)
  | [], _ => by simpa [pjoinAcc] using hp
  | b :: rest, h => by
    have hb := h b (by simp)
    have hrest : ∀ s ∈ rest, s = [] ∨ ∀ c ∈ splitOnSep s, c = ['.'] :=
      fun s hs => h s (by simp [hs])
    have hbT : TrivPath b := trivPath_of_seg hb
    simp only [pjoinAcc]
    rw [if_neg hbT.2]
    by_cases hc : path = [] ∨ path.getLast? = some sep
    · rw [if_pos hc]
      refine trivPath_pjoinAcc ?_ rest hrest
      rcases hc with rfl | hlast
      · simpa using hbT
      · obtain ⟨a', rfl⟩ := List.getLast?_eq_some_iff.1 hlast
        have ha' : a' ≠ [] := by
          rintro rfl
          exact hp.2 (by simp)
        constructor
        · intro c hcmem
          rw [List.append_assoc, List.singleton_append,
            splitOnSep_append_sep] at hcmem
          rcases List.mem_append.1 hcmem with hmem | hmem
          · refine hp.1 c ?_
            rw [splitOnSep_append_sep a' []]
            exact List.mem_append.1 (by simpa using Or.inl hmem) |>.elim
              (fun x => List.mem_append_left _ x) (fun x => List.mem_append_right _ x)
          · exact hbT.1 c hmem
        · rw [List.append_assoc, List.head?_append]
          cases ha'' : a'.head? with
          | none => exact absurd (List.head?_eq_none_iff.1 ha'') ha'
          | some x =>
            have : (a' ++ [sep]).head? = some x := by
              rw [List.head?_append, ha'']
              rfl
            simp only [ha'', Option.or_some]
            exact this ▸ hp.2
    · rw [if_neg hc]
      refine trivPath_pjoinAcc ?_ rest hrest
      have hpne : path ≠ [] := fun hh => hc (Or.inl hh)
      constructor
      · intro c hcmem
        rw [splitOnSep_append_sep] at hcmem
        rcases List.mem_append.1 hcmem with hmem | hmem
        · exact hp.1 c hmem
        · exact hbT.1 c hmem
      · rw [List.head?_append]
        cases hph : path.head? with
        | none => exact absurd (List.head?_eq_none_iff.1 hph) hpne
        | some x =>
          simp only [Option.or_some]
          exact hph ▸ hp.2

/-- A plain path component: non-empty, not `.`, not `..`, separator-free. -/
def PlainComp (x : List Char) : Prop :=
  x ≠ [] ∧ x ≠ ['.'] ∧ x ≠ ['.', '.'] ∧ sep ∉ x

/-- A fully normalized absolute path: one or two leading separators
followed by the join of plain components. -/
def GoodAbs (p : List Char) : Prop :=
  ∃ k nc, (k = 1 ∨ k = 2) ∧ (∀ x ∈ nc, PlainComp x) ∧
    p = List.replicate k sep ++ joinComps nc

theorem splitOnSep_sep_free : ∀ p : List Char, ∀ c ∈ splitOnSep p, sep ∉ c
  | [], c, hc => by
    simp [splitOnSep] at hc
    simp [hc]
  | ch :: cs, c, hc => by
    by_cases h : ch = sep
    · subst h
      rw [show splitOnSep (sep :: cs) = [] :: splitOnSep cs from by
        rw [splitOnSep, if_pos rfl]] at hc
      rcases List.mem_cons.1 hc with rfl | hmem
      · simp
      · exact splitOnSep_sep_free cs c hmem
    · obtain ⟨h0, t0, hcs⟩ : ∃ h0 t0, splitOnSep cs = h0 :: t0 := by
        cases hcs' : splitOnSep cs with
        | nil => exact absurd hcs' (splitOnSep_ne_nil cs)
        | cons x y => exact ⟨x, y, rfl⟩
      rw [show splitOnSep (ch :: cs) = (ch :: h0) :: t0 from by
        rw [splitOnSep, if_neg h, hcs]] at hc
      rcases List.mem_cons.1 hc with rfl | hmem
      · intro hm
        rcases List.mem_cons.1 hm with heq | hmem2
        · exact h heq.symm
        · exact splitOnSep_sep_free cs h0 (hcs ▸ List.mem_cons_self h0 t0) hmem2
      · exact splitOnSep_sep_free cs c (hcs ▸ List.mem_cons_of_mem h0 hmem)

/-- A separator-free string splits into itself. -/
theorem splitOnSep_single : ∀ {c : List Char}, sep ∉ c → splitOnSep c = [c]
  | [], _ => rfl
  | ch :: cs, h => by
    have hch : ch ≠ sep := fun hh => h (hh ▸ List.mem_cons_self ch cs)
    have ih : splitOnSep cs = [cs] :=
      splitOnSep_single (fun hm => h (List.mem_cons_of_mem ch hm))
    rw [splitOnSep, if_neg hch, ih]

/-- Joining separator-free components and re-splitting gives them back. -/
theorem joinComps_roundtrip : ∀ {comps : List (List Char)}, comps ≠ [] →
    (∀ c ∈ comps, sep ∉ c) → splitOnSep (joinComps comps) = comps
  | [], h, _ => absurd rfl h
  | [c], _, h => by
    rw [joinComps]
    exact splitOnSep_single (h c (by simp))
  | c :: c2 :: t, _, h => by
    rw [show joinComps (c :: c2 :: t) = c ++ sep :: joinComps (c2 :: t) from rfl]
    rw [splitOnSep_append_sep]
    rw [splitOnSep_single (h c (by simp))]
    rw [joinComps_roundtrip (by simp) (fun x hx => h x (List.mem_cons_of_mem c hx))]
    rfl

theorem joinComps_ne_nil : ∀ {nc : List (List Char)}, nc ≠ [] →
    (∀ x ∈ nc, x ≠ []) → joinComps nc ≠ []
  | [], h, _ => absurd rfl h
  | [c], _, h => by
    rw [joinComps]
    exact h c (by simp)
  | c :: c2 :: t, _, _ => by
    rw [show joinComps (c :: c2 :: t) = c ++ sep :: joinComps (c2 :: t) from rfl]
    cases c <;> simp

theorem joinComps_head : ∀ {c : List Char} {t : List (List Char)}, c ≠ [] →
    (joinComps (c :: t)).head? = c.head?
  | c, [], _ => by rw [joinComps]
  | c, c2 :: t, h => by
    rw [show joinComps (c :: c2 :: t) = c ++ sep :: joinComps (c2 :: t) from rfl]
    rw [List.head?_append]
    cases c with
    | nil => exact absurd rfl h
    | cons x xs => rfl

/-- The head character of a join of plain components is not the separator. -/
theorem joinComps_head_ne_sep {nc : List (List Char)}
    (h : ∀ x ∈ nc, PlainComp x) : (joinComps nc).head? ≠ some sep := by
  cases nc with
  | nil => simp [joinComps]
  | cons c t =>
    have hc := h c (by simp)
    rw [joinComps_head hc.1]
    cases c with
    | nil => exact absurd rfl hc.1
    | cons x xs =>
      intro hh
      have hx : x = sep := by
        simp only [List.head?] at hh
        injection hh
      exact hc.2.2.2 (hx ▸ List.mem_cons_self x xs)

/-- Every component kept by the normalization loop comes from the initial
accumulator or the input. -/
theorem normComps_mem : ∀ {comps acc : List (List Char)} {k : Nat}
    {x : List Char}, x ∈ normComps k acc comps → x ∈ acc ∨ x ∈ comps
  | [], acc, k, x, h => Or.inl h
  | comp :: rest, acc, k, x, h => by
    rw [normComps] at h
    split at h
    · rcases normComps_mem h with hx | hx
      · exact Or.inl hx
      · exact Or.inr (List.mem_cons_of_mem comp hx)
    · split at h
      · rcases normComps_mem h with hx | hx
        · rcases List.mem_append.1 hx with hx' | hx'
          · exact Or.inl hx'
          · exact Or.inr (by simpa using Or.inl (List.mem_singleton.1 hx'))
        · exact Or.inr (List.mem_cons_of_mem comp hx)
      · split at h
        · rcases normComps_mem h with hx | hx
          · exact Or.inl (List.dropLast_subset _ hx)
          · exact Or.inr (List.mem_cons_of_mem comp hx)
        · rcases normComps_mem h with hx | hx
          · exact Or.inl hx
          · exact Or.inr (List.mem_cons_of_mem comp hx)

/-- The normalization loop never keeps an empty or `.` component. -/
theorem normComps_no_empty_dot : ∀ {comps acc : List (List Char)} {k : Nat},
    (∀ x ∈ acc, x ≠ [] ∧ x ≠ ['.']) →
    ∀ x ∈ normComps k acc comps, x ≠ [] ∧ x ≠ ['.']
  | [], acc, k, hacc, x, h => hacc x h
  | comp :: rest, acc, k, hacc, x, h => by
    rw [normComps] at h
    split at h
    · exact normComps_no_empty_dot hacc x h
    · next hskip =>
      split at h
      · refine normComps_no_empty_dot ?_ x h
        intro y hy
        rcases List.mem_append.1 hy with hy' | hy'
        · exact hacc y hy'
        · obtain rfl : y = comp := List.mem_singleton.1 hy'
          exact ⟨fun hh => hskip (Or.inl hh), fun hh => hskip (Or.inr hh)⟩
      · split at h
        · exact normComps_no_empty_dot
            (fun y hy => hacc y (List.dropLast_subset _ hy)) x h
        · exact normComps_no_empty_dot hacc x h

/-- On an absolute path (`slashes ≠ 0`) the loop never keeps a `..`. -/
theorem normComps_abs_no_dd : ∀ {comps acc : List (List Char)} {k : Nat},
    k ≠ 0 → (∀ x ∈ acc, x ≠ ['.', '.']) →
    ∀ x ∈ normComps k acc comps, x ≠ ['.', '.']
  | [], acc, k, _, hacc, x, h => hacc x h
  | comp :: rest, acc, k, hk, hacc, x, h => by
    rw [normComps] at h
    split at h
    · exact normComps_abs_no_dd hk hacc x h
    · split at h
      · next hcond =>
        refine normComps_abs_no_dd hk ?_ x h
        intro y hy
        rcases List.mem_append.1 hy with hy' | hy'
        · exact hacc y hy'
        · obtain rfl : y = comp := List.mem_singleton.1 hy'
          rcases hcond with hne | ⟨hk0, -⟩ | ⟨-, hlast⟩
          · exact hne
          · exact absurd hk0 hk
          · intro rfl'
            exact hacc _ (List.mem_of_getLast?_eq_some hlast) rfl
      · split at h
        · exact normComps_abs_no_dd hk
            (fun y hy => hacc y (List.dropLast_subset _ hy)) x h
        · exact normComps_abs_no_dd hk hacc x h

/-- `..` components occur only as a leading block of the accumulator. -/
def DotdotLead (acc : List (List Char)) : Prop :=
  ∃ n plains, acc = List.replicate n ['.', '.'] ++ plains ∧
    ∀ x ∈ plains, x ≠ ['.', '.']

theorem dotdotLead_nil : DotdotLead [] := ⟨0, [], rfl, by simp⟩

/-- The loop preserves the leading-`..`-block shape. -/
theorem normComps_ddLead : ∀ {comps acc : List (List Char)} {k : Nat},
    DotdotLead acc → DotdotLead (normComps k acc comps)
  | [], acc, k, hacc => hacc
  | comp :: rest, acc, k, hacc => by
    rw [normComps]
    split
    · exact normComps_ddLead hacc
    · split
      · next hcond =>
        refine normComps_ddLead ?_
        obtain ⟨n, plains, rfl, hpl⟩ := hacc
        by_cases hdd : comp = ['.', '.']
        · subst hdd
          have hplnil : plains = [] := by
            rcases hcond with hne | ⟨-, hnil⟩ | ⟨-, hlast⟩
            · exact absurd rfl hne
            · rcases List.append_eq_nil.1 hnil with ⟨-, h2⟩
              exact h2
            · cases hplc : plains with
              | nil => rfl
              | cons p ps =>
                exfalso
                rw [hplc, List.getLast?_append_of_ne_nil _ (by simp)] at hlast
                exact hpl _ (hplc ▸ List.mem_of_getLast?_eq_some hlast) rfl
          subst hplnil
          exact ⟨n + 1, [], by
            rw [List.append_nil, List.append_nil,
              List.replicate_succ' n ['.', '.']], by simp⟩
        · exact ⟨n, plains ++ [comp], by rw [List.append_assoc], by
            intro y hy
            rcases List.mem_append.1 hy with hy' | hy'
            · exact hpl y hy'
            · rw [List.mem_singleton.1 hy']
              exact hdd⟩
      · split
        · next hcond hne =>
          refine normComps_ddLead ?_
          obtain ⟨n, plains, rfl, hpl⟩ := hacc
          have hplne : plains ≠ [] := by
            rintro rfl
            rw [List.append_nil] at hcond hne
            simp only [not_or] at hcond
            obtain ⟨hdd, hk, hlast⟩ := hcond
            have hcompdd : comp = ['.', '.'] := by
              by_contra hc
              exact hdd hc
            cases n with
            | zero => exact hne rfl
            | succ m =>
              apply hlast
              refine ⟨hne, ?_⟩
              rw [List.getLast?_replicate]
              simp
          exact ⟨n, plains.dropLast, by
              rw [List.dropLast_append_of_ne_nil _ hplne],
            fun y hy => hpl y (List.dropLast_subset _ hy)⟩
        · exact normComps_ddLead hacc

/-- If the leading-`..`-block list does not start with `..`, it has none. -/
theorem ddLead_no_dd {l : List (List Char)} (hdl : DotdotLead l)
    (hh : l.head? ≠ some ['.', '.']) : ∀ x ∈ l, x ≠ ['.', '.'] := by
  obtain ⟨n, plains, rfl, hpl⟩ := hdl
  cases n with
  | zero => simpa using hpl
  | succ m =>
    exfalso
    apply hh
    rw [List.replicate_succ]
    rfl

theorem normComps_skip_empty {k : Nat} {acc comps : List (List Char)} :
    normComps k acc ([] :: comps) = normComps k acc comps := by
  rw [normComps, if_pos (Or.inl rfl)]

/-- On plain components the loop appends everything. -/
theorem normComps_all_plain : ∀ {comps acc : List (List Char)} {k : Nat},
    (∀ c ∈ comps, PlainComp c) → normComps k acc comps = acc ++ comps
  | [], acc, k, _ => by simp [normComps]
  | comp :: rest, acc, k, h => by
    have hc := h comp (by simp)
    rw [normComps]
    rw [if_neg (by
      rintro (h1 | h1)
      exacts [hc.1 h1, hc.2.1 h1])]
    rw [if_pos (Or.inl hc.2.2.1)]
    rw [normComps_all_plain (fun c hcm => h c (List.mem_cons_of_mem comp hcm))]
    simp

theorem take_one_ne_sep {j : List Char} (h : j.head? ≠ some sep) :
    j.take 1 ≠ [sep] := by
  cases j with
  | nil => simp
  | cons c cs =>
    intro hh
    apply h
    simp only [List.take] at hh
    simp only [List.head?]
    rw [(List.cons.inj hh).1]

theorem splitroot_one_sep {j : List Char} (h : j.head? ≠ some sep) :
    splitrootF (sep :: j) = ([sep], j) := by
  unfold splitrootF
  rw [if_neg (fun hne => hne rfl)]
  simp only [List.drop_succ_cons, List.drop_zero]
  rw [if_pos (Or.inl (take_one_ne_sep h))]

theorem splitroot_two_sep {j : List Char} (h : j.head? ≠ some sep) :
    splitrootF (sep :: sep :: j) = ([sep, sep], j) := by
  unfold splitrootF
  rw [if_neg (fun hne => hne rfl)]
  simp only [List.drop_succ_cons, List.drop_zero]
  rw [if_neg (by
    rintro (h1 | h1)
    · exact h1 rfl
    · exact take_one_ne_sep h h1)]

theorem initialSlashes_one {j : List Char} (h : j.head? ≠ some sep) :
    initialSlashes (sep :: j) = 1 := by
  unfold initialSlashes
  rw [if_pos (show isabs (sep :: j) = true from rfl)]
  rw [if_neg (by
    rintro ⟨h1, -⟩
    refine take_one_ne_sep h ?_
    injection h1)]

theorem initialSlashes_two {j : List Char} (h : j.head? ≠ some sep) :
    initialSlashes (sep :: sep :: j) = 2 := by
  unfold initialSlashes
  rw [if_pos (show isabs (sep :: sep :: j) = true from rfl)]
  rw [if_pos ⟨rfl, by
    intro h3
    refine take_one_ne_sep h ?_
    injection h3 with a b
    injection b⟩]

theorem splitOnSep_cons_sep (j : List Char) :
    splitOnSep (sep :: j) = [] :: splitOnSep j := by
  rw [splitOnSep, if_pos rfl]

/-- `join(sep, n)` for a non-absolute `n` prefixes one separator. -/
theorem joined_sep_rel {n : List Char} (h : n.head? ≠ some sep) :
    joined_segments [[sep], n] = sep :: n := by
  simp only [joined_segments, pjoinAcc]
  rw [if_neg h]
  rw [if_pos (Or.inr (show ([sep] : List Char).getLast? = some sep from rfl))]
  rfl

/-- `__vfspath__` never returns the empty string. -/
theorem vfspathF_ne_nil (segs : List (List Char)) : vfspathF segs ≠ [] := by
  simp only [vfspathF]
  split
  · simp
  · split
    · simp
    · assumption

theorem isabs_goodAbs {p : List Char} (hg : GoodAbs p) : isabs p = true := by
  obtain ⟨k, nc, hk, -, rfl⟩ := hg
  rcases hk with rfl | rfl <;> rfl

/-- `normpath` is the identity on normalized absolute paths. -/
theorem normpath_goodAbs {p : List Char} (hg : GoodAbs p) : normpath p = p := by
  obtain ⟨k, nc, hk, hnc, rfl⟩ := hg
  have hjh : (joinComps nc).head? ≠ some sep := joinComps_head_ne_sep hnc
  by_cases h0 : nc = []
  · subst h0
    rcases hk with rfl | rfl <;> rfl
  · have hsplit : splitOnSep (joinComps nc) = nc :=
      joinComps_roundtrip h0 (fun x hx => (hnc x hx).2.2.2)
    rcases hk with rfl | rfl
    · show normpath (sep :: joinComps nc) = sep :: joinComps nc
      simp only [normpath]
      rw [if_neg (by simp)]
      rw [initialSlashes_one hjh]
      rw [splitOnSep_cons_sep]
      rw [normComps_skip_empty]
      rw [hsplit]
      rw [normComps_all_plain hnc]
      rw [List.nil_append]
      rw [if_neg (by simp [List.replicate_succ])]
      rfl
    · show normpath (sep :: sep :: joinComps nc) = sep :: sep :: joinComps nc
      simp only [normpath]
      rw [if_neg (by simp)]
      rw [initialSlashes_two hjh]
      rw [splitOnSep_cons_sep, splitOnSep_cons_sep]
      rw [normComps_skip_empty, normComps_skip_empty]
      rw [hsplit]
      rw [normComps_all_plain hnc]
      rw [List.nil_append]
      rw [if_neg (by simp [List.replicate_succ])]
      rfl

/-- `__vfspath__` is the identity on a path wrapping one normalized
absolute segment. -/
theorem vfspathF_goodAbs {p : List Char} (hg : GoodAbs p) : vfspathF [p] = p := by
  obtain ⟨k, nc, hk, hnc, rfl⟩ := hg
  have hjh : (joinComps nc).head? ≠ some sep := joinComps_head_ne_sep hnc
  by_cases h0 : nc = []
  · subst h0
    rcases hk with rfl | rfl <;> rfl
  · have hsplit : splitOnSep (joinComps nc) = nc :=
      joinComps_roundtrip h0 (fun x hx => (hnc x hx).2.2.2)
    have hfilter : nc.filter (fun x => decide (¬ (x = [] ∨ x = ['.']))) = nc := by
      rw [List.filter_eq_self]
      intro a ha
      have hp := hnc a ha
      simp [hp.1, hp.2.1]
    rcases hk with rfl | rfl
    · show vfspathF [sep :: joinComps nc] = sep :: joinComps nc
      have h1 : (splitrootF (sep :: joinComps nc)).1 = [sep] := by
        rw [splitroot_one_sep hjh]
      have h2 : (splitrootF (sep :: joinComps nc)).2 = joinComps nc := by
        rw [splitroot_one_sep hjh]
      simp only [vfspathF, joined_segments, pjoinAcc]
      rw [if_neg (by simp)]
      rw [h1, h2, hsplit, hfilter]
      rw [if_neg (by simp)]
      rfl
    · show vfspathF [sep :: sep :: joinComps nc] = sep :: sep :: joinComps nc
      have h1 : (splitrootF (sep :: sep :: joinComps nc)).1 = [sep, sep] := by
        rw [splitroot_two_sep hjh]
      have h2 : (splitrootF (sep :: sep :: joinComps nc)).2 = joinComps nc := by
        rw [splitroot_two_sep hjh]
      simp only [vfspathF, joined_segments, pjoinAcc]
      rw [if_neg (by simp)]
      rw [h1, h2, hsplit, hfilter]
      rw [if_neg (by simp)]
      rfl

/-- Shape of `normpath` output: the current-directory marker, a relative
join whose `..` components form a leading block, or a normalized absolute
path. -/
theorem normpath_char (s : List Char) (hs : s ≠ []) :
    normpath s = ['.'] ∨
    (∃ nc, (∀ x ∈ nc, (x ≠ [] ∧ x ≠ ['.']) ∧ sep ∉ x) ∧ DotdotLead nc ∧
      nc ≠ [] ∧ normpath s = joinComps nc) ∨
    (∃ k nc, (k = 1 ∨ k = 2) ∧ (∀ x ∈ nc, PlainComp x) ∧
      normpath s = List.replicate k sep ++ joinComps nc) := by
  have hKcases : initialSlashes s = 0 ∨ initialSlashes s = 1 ∨
      initialSlashes s = 2 := by
    unfold initialSlashes
    split
    · split
      · right; right; rfl
      · right; left; rfl
    · left; rfl
  have hed : ∀ x ∈ normComps (initialSlashes s) [] (splitOnSep s),
      x ≠ [] ∧ x ≠ ['.'] := normComps_no_empty_dot (by simp)
  have hsf : ∀ x ∈ normComps (initialSlashes s) [] (splitOnSep s), sep ∉ x := by
    intro x hx
    rcases normComps_mem hx with hmem | hmem
    · exact absurd hmem (List.not_mem_nil x)
    · exact splitOnSep_sep_free s x hmem
  by_cases hout : List.replicate (initialSlashes s) sep ++
      joinComps (normComps (initialSlashes s) [] (splitOnSep s)) = []
  · left
    simp only [normpath]
    rw [if_neg hs, if_pos hout]
  · have hn : normpath s = List.replicate (initialSlashes s) sep ++
        joinComps (normComps (initialSlashes s) [] (splitOnSep s)) := by
      simp only [normpath]
      rw [if_neg hs, if_neg hout]
    rcases hKcases with hK | hK | hK
    · right; left
      rw [hK] at hn hout hed hsf
      simp only [List.replicate_zero, List.nil_append] at hn hout
      refine ⟨normComps 0 [] (splitOnSep s),
        fun x hx => ⟨hed x hx, hsf x hx⟩,
        normComps_ddLead dotdotLead_nil, ?_, hn⟩
      rintro hnc0
      rw [hnc0] at hout
      exact hout rfl
    · right; right
      rw [hK] at hn hed hsf
      refine ⟨1, normComps 1 [] (splitOnSep s), Or.inl rfl, ?_, hn⟩
      intro x hx
      exact ⟨(hed x hx).1, (hed x hx).2,
        normComps_abs_no_dd one_ne_zero (by simp) x hx, hsf x hx⟩
    · right; right
      rw [hK] at hn hed hsf
      refine ⟨2, normComps 2 [] (splitOnSep s), Or.inr rfl, ?_, hn⟩
      intro x hx
      exact ⟨(hed x hx).1, (hed x hx).2,
        normComps_abs_no_dd two_ne_zero (by simp) x hx, hsf x hx⟩

/-- When the fully normalized form has no leading `..` component,
`GofilePath.resolve` produces either a normalized absolute path or the
special string `"/."`. -/
theorem resolveF_char (segs : List (List Char))
    (h : (splitOnSep (normpath (vfspathF segs))).head? ≠ some ['.', '.']) :
    GoodAbs (resolveF segs) ∨ resolveF segs = [sep, '.'] := by
  rcases normpath_char (vfspathF segs) (vfspathF_ne_nil segs) with hdot |
    ⟨nc, hed, hdl, hne, hn⟩ | ⟨k, nc, hk, hplain, hn⟩
  · right
    simp only [resolveF]
    rw [hdot]
    rfl
  · left
    have hsplit : splitOnSep (joinComps nc) = nc :=
      joinComps_roundtrip hne (fun x hx => (hed x hx).2)
    rw [hn, hsplit] at h
    have hnodd := ddLead_no_dd hdl h
    have hpl : ∀ x ∈ nc, PlainComp x := fun x hx =>
      ⟨(hed x hx).1.1, (hed x hx).1.2, hnodd x hx, (hed x hx).2⟩
    have hjh := joinComps_head_ne_sep hpl
    simp only [resolveF]
    rw [hn]
    rw [if_neg (fun habs => hjh (by
      simp only [isabs] at habs
      exact eq_of_beq habs))]
    rw [joined_sep_rel hjh]
    exact ⟨1, nc, Or.inl rfl, hpl, rfl⟩
  · left
    simp only [resolveF]
    rw [hn]
    rw [if_pos (isabs_goodAbs ⟨k, nc, hk, hplain, rfl⟩)]
    exact ⟨k, nc, hk, hplain, rfl⟩

/-- `resolve` is the identity on a path wrapping one normalized absolute
segment. -/
theorem resolveF_goodAbs_fix {p : List Char} (hg : GoodAbs p) :
    resolveF [p] = p := by
  simp only [resolveF]
  rw [vfspathF_goodAbs hg, normpath_goodAbs hg]
  rw [if_pos (isabs_goodAbs hg)]

/-- With a duplicate-free name list, `select_by_names` satisfies the strict
folders-first-then-name ordering. -/
theorem select_by_names_pairwise_strict (children : List Content)
    (names : List String) (hnd : names.Nodup) :
    List.Pairwise FoldersFirstThenName (select_by_names children names) := by
  obtain ⟨hs, hn⟩ := select_by_names_sorted children names hnd
  refine (hs.and hn).imp ?_
  rintro a b ⟨hab, hne⟩
  rcases hab with ⟨ha, hb⟩ | ⟨heq, hab⟩
  · exact Or.inl ⟨ha, hb⟩
  · exact Or.inr ⟨heq, lt_of_le_of_ne hab hne⟩

end Gofile

namespace Gofile

/-- C2: for every non-none content node, `ensure_updated` invokes the remote
reload exactly when the last-refresh annotation is absent or the current time
exceeds the annotation plus the fixed 15-second TTL; within the TTL the node
is returned unchanged with no reload call; on a successful reload the
annotation is set to the current time; `none` passes through unchanged. -/
theorem C2_ensure_updated_ttl (env : Env) (c : Content) :
    ensure_updatedT env none = (.ok none, false) ∧
    ((ensure_updatedT env (some c)).2 = true ↔ StaleSpec env.now c) ∧
    (¬ StaleSpec env.now c → ensure_updatedT env (some c) = (.ok (some c), false)) ∧
    (∀ c', StaleSpec env.now c → env.reload c = .ok c' →
      ensure_updatedT env (some c) =
        (.ok (some (c'.set_when_updated (some env.now))), true)) := by
  refine ⟨rfl, ?_, ?_, ?_⟩
  · simp only [ensure_updatedT, StaleSpec]
    cases hw : c.when_updated with
    | none =>
      simp only [if_pos rfl]
      cases env.reload c <;> simp
    | some w =>
      have hm : (match (some w : Option Nat) with
          | none => true
          | some u => decide (env.now > u + UPDATE_AFTER)) =
          decide (env.now > w + UPDATE_AFTER) := rfl
      rw [hm]
      by_cases hgt : env.now > w + UPDATE_AFTER
      · rw [decide_eq_true hgt]
        simp only [UPDATE_AFTER] at hgt
        cases env.reload c <;> simp <;> omega
      · rw [decide_eq_false hgt]
        simp only [UPDATE_AFTER] at hgt
        simp
        omega
  · intro hfresh
    simp only [StaleSpec, not_or] at hfresh
    obtain ⟨h1, h2⟩ := hfresh
    cases hw : c.when_updated with
    | none => exact absurd hw h1
    | some w =>
      have hle : ¬ env.now > w + UPDATE_AFTER := by
        intro hgt
        exact h2 ⟨w, hw, by simpa [UPDATE_AFTER] using hgt⟩
      simp [ensure_updatedT, hw, hle]
  · intro c' hstale hrel
    cases hw : c.when_updated with
    | none => simp [ensure_updatedT, hw, hrel]
    | some w =>
      rcases hstale with h | ⟨w', hw', hgt⟩
      · rw [hw] at h; exact Option.noConfusion h
      · rw [hw] at hw'
        have : w' = w := by injection hw' with h; omega
        subst this
        simp [ensure_updatedT, hw, hrel, UPDATE_AFTER]
        omega

/-- Witness for C2 at concrete inputs: a node refreshed at time 100 with
`now = 100` is within the TTL and is returned unchanged with no reload call;
a node with an absent annotation is reloaded and stamped with `now`. -/
theorem C2_ensure_updated_ttl_witness :
    ensure_updatedT ⟨100, fun _ => .ok (.mk .file "b" 3 none [])⟩
        (some (.mk .file "a" 1 (some 100) [])) =
      (.ok (some (.mk .file "a" 1 (some 100) [])), false) ∧
    ensure_updatedT ⟨100, fun _ => .ok (.mk .file "b" 3 none [])⟩
        (some (.mk .file "a" 1 none [])) =
      (.ok (some (.mk .file "b" 3 (some 100) [])), true) := by
  constructor
  · refine (C2_ensure_updated_ttl ⟨100, fun _ => .ok (.mk .file "b" 3 none [])⟩
      (.mk .file "a" 1 (some 100) [])).2.2.1 ?_
    rintro (h | ⟨w, hw, hgt⟩)
    · exact Option.noConfusion h
    · have hw100 : w = 100 := by
        injection hw with h
        omega
      subst hw100
      revert hgt
      decide
  · exact (C2_ensure_updated_ttl ⟨100, fun _ => .ok (.mk .file "b" 3 none [])⟩
      (.mk .file "a" 1 none [])).2.2.2 (.mk .file "b" 3 none []) (Or.inl rfl) rfl

/-- C4: when a staleness refresh is attempted and the reload fails with the
collaborator's content-not-found error, `ensure_updated` returns `none`
(the node is treated as evicted) and that error does not escape; every other
exception raised by the reload propagates unchanged. -/
theorem C4_ensure_updated_eviction (env : Env) (c : Content)
    (hstale : StaleSpec env.now c) :
    (env.reload c = .notFound → ensure_updated env (some c) = .ok none) ∧
    (∀ e, env.reload c = .err e → ensure_updated env (some c) = .error e) := by
  have hb : (match c.when_updated with
      | none => true
      | some w => decide (env.now > w + UPDATE_AFTER)) = true := by
    rcases hstale with h | ⟨w, hw, hgt⟩
    · rw [h]
    · rw [hw]
      simp [UPDATE_AFTER]
      omega
  constructor
  · intro hrel
    simp [ensure_updated, ensure_updatedT, hb, hrel]
  · intro e hrel
    simp [ensure_updated, ensure_updatedT, hb, hrel]

/-- Witness for C4 at concrete inputs: a stale node whose reload reports
content-not-found is evicted to `none`; one whose reload raises another
error propagates that error. -/
theorem C4_ensure_updated_eviction_witness :
    ensure_updated ⟨100, fun _ => .notFound⟩ (some (.mk .folder "a" 1 (some 0) [])) =
      .ok none ∧
    ensure_updated ⟨100, fun _ => .err 7⟩ (some (.mk .folder "a" 1 (some 0) [])) =
      .error 7 := by
  constructor
  · exact (C4_ensure_updated_eviction ⟨100, fun _ => .notFound⟩
      (.mk .folder "a" 1 (some 0) []) (Or.inr ⟨0, rfl, by decide⟩)).1 rfl
  · exact (C4_ensure_updated_eviction ⟨100, fun _ => .err 7⟩
      (.mk .folder "a" 1 (some 0) []) (Or.inr ⟨0, rfl, by decide⟩)).2 7 rfl

/-- C1 (evaluation at the failing input): in a folder whose children are a
Folder named `"a"` created at t=2 and a File named `"a"` created at t=1, both
`get_content(folder, "a")` and the deduplicated `get_children` select the
File created at t=1 — not the same-named sibling with the greatest
`time_created` (the Folder, t=2), because the `(is_file_type, name,
time_created)` sort puts every file after every same-named folder, so
`filtered[-1]` is kind-dependent.  This contradicts the in-code comment
"children are already sorted by creation time in ascending order". -/
theorem C1_duplicate_name_selection_eval :
    get_content envFresh rootAB "a" = .ok (some fileA1) ∧
    get_children envFresh rootAB = .ok [fileA1] ∧
    folderA2 ∈ rootAB.children ∧ folderA2.name = "a" ∧
    fileA1.name = "a" ∧ fileA1.time_created < folderA2.time_created := by
  refine ⟨rfl, rfl, ?_, rfl, rfl, by decide⟩
  simp [rootAB, Content.children]

/-- C10: the `_update_folder` decorator discards the return value of
`ensure_updated`, so when a stale folder's reload reports content-not-found
(eviction), `_get_children` and `get_children` still succeed, reading the
stale folder's cached `children` instead of treating the folder as absent. -/
theorem C10_eviction_reads_stale_children (env : Env) (folder : Content)
    (hstale : StaleSpec env.now folder)
    (hnf : env.reload folder = .notFound) :
    _get_children env folder = .ok (sort_children folder) ∧
    get_children env folder =
      .ok (select_by_names (sort_children folder)
        ((sort_children folder).map (fun ch => ch.name)).dedup) := by
  have hev : ensure_updated env (some folder) = .ok none := by
    simp [ensure_updated, ensure_updatedT, stale_match_true hstale, hnf]
  refine ⟨?_, ?_⟩
  · simp [_get_children, update_folder, hev, Option.getD]
  · simp [get_children, _get_children, update_folder, hev, Option.getD]

/-- Witness for C10 at a concrete input: a never-refreshed folder whose
reload reports content-not-found still lists its cached duplicate-named
children (deduplicated to the t=1 File). -/
theorem C10_eviction_reads_stale_children_witness :
    _get_children ⟨0, fun _ => .notFound⟩
        (.mk .folder "root" 0 none [folderA2, fileA1]) =
      .ok [folderA2, fileA1] ∧
    get_children ⟨0, fun _ => .notFound⟩
        (.mk .folder "root" 0 none [folderA2, fileA1]) =
      .ok [fileA1] := by
  have h := C10_eviction_reads_stale_children ⟨0, fun _ => .notFound⟩
    (.mk .folder "root" 0 none [folderA2, fileA1]) (Or.inl rfl) rfl
  exact ⟨h.1.trans rfl, h.2.trans rfl⟩

/-- C5: every successful `get_children` listing is ordered with all Folder
entries before all File entries and, within each kind, strictly increasing
lexical names; and the select-and-resort is deterministic despite the
unordered intermediate name set — any two duplicate-free enumerations of the
same set of names yield equal output. -/
theorem C5_get_children_order_deterministic (env : Env) (folder : Content) :
    (∀ res, get_children env folder = .ok res →
      List.Pairwise FoldersFirstThenName res) ∧
    (∀ children (names₁ names₂ : List String), names₁.Nodup → names₂.Nodup →
      (∀ n, n ∈ names₁ ↔ n ∈ names₂) →
      select_by_names children names₁ = select_by_names children names₂) := by
  constructor
  · intro res h
    unfold get_children at h
    cases hg : _get_children env folder with
    | error e =>
      rw [hg] at h
      exact Except.noConfusion h
    | ok ch =>
      rw [hg] at h
      have hres : select_by_names ch ((ch.map fun c => c.name).dedup) = res :=
        Except.ok.inj h
      rw [← hres]
      exact select_by_names_pairwise_strict ch _ (List.nodup_dedup _)
  · intro children names₁ names₂ h1 h2 hiff
    have hp : names₁.Perm names₂ := (List.perm_ext_iff_of_nodup h1 h2).2 hiff
    have hperm := hp.filterMap
      (fun n => (children.filter fun ch => ch.name == n).getLast?)
    obtain ⟨hs1, hn1⟩ := select_by_names_sorted children names₁ h1
    obtain ⟨hs2, hn2⟩ := select_by_names_sorted children names₂ h2
    exact sorted_nodup_names_eq
      ((List.perm_insertionSort le2 _).trans
        (hperm.trans (List.perm_insertionSort le2 _).symm))
      hs1 hs2 hn1 hn2

/-- C6 (amended): `exists`, `is_dir` and `is_file` each apply
`ensure_updated` to the underlying content before answering (the refreshed
content replaces the stored one and the answer is computed from it; a reload
exception propagates); `is_symlink`, which carries no `_update_content`
decorator, always returns `false` and leaves the content untouched. -/
theorem C6_queries_refresh_first (env : Env) (c : Option Content) :
    (∀ c', ensure_updated env c = .ok c' →
      info_exists env c = .ok (c'.isSome, c') ∧
      info_is_dir env c = .ok (is_dir_answer c', c') ∧
      info_is_file env c = .ok (is_file_answer c', c')) ∧
    (∀ e, ensure_updated env c = .error e →
      info_exists env c = .error e ∧
      info_is_dir env c = .error e ∧
      info_is_file env c = .error e) ∧
    info_is_symlink env c = .ok (false, c) := by
  refine ⟨?_, ?_, rfl⟩
  · intro c' h
    refine ⟨?_, ?_, ?_⟩ <;>
      simp [info_exists, info_is_dir, info_is_file, h, Bind.bind, Except.bind,
        Pure.pure, Except.pure]
  · intro e h
    refine ⟨?_, ?_, ?_⟩ <;>
      simp [info_exists, info_is_dir, info_is_file, h, Bind.bind, Except.bind,
        Pure.pure, Except.pure]

/-- Witness for C6 at a concrete input: on a stale file whose reload reports
content-not-found, the three refreshing queries answer `false` with the
content evicted to `none`, while `is_symlink` answers `false` with the
content untouched. -/
theorem C6_queries_refresh_first_witness :
    info_exists envEvict (some staleS) = .ok (false, none) ∧
    info_is_dir envEvict (some staleS) = .ok (false, none) ∧
    info_is_file envEvict (some staleS) = .ok (false, none) ∧
    info_is_symlink envEvict (some staleS) = .ok (false, some staleS) := by
  have h := C6_queries_refresh_first envEvict (some staleS)
  have h1 := h.1 none rfl
  exact ⟨h1.1, h1.2.1, h1.2.2, h.2.2⟩

/-- C6 (counterexample): `is_symlink` does NOT refresh staleness first.  On
a stale node whose refresh would evict the content to `none`,
`is_symlink` leaves the content unchanged (`some staleS`), whereas applying
`ensure_updated` first would have produced `none`. -/
theorem C6_is_symlink_no_refresh_counterexample :
    info_is_symlink envEvict (some staleS) = .ok (false, some staleS) ∧
    ensure_updated envEvict (some staleS) = .ok none ∧
    some staleS ≠ (none : Option Content) := by
  exact ⟨rfl, rfl, by simp⟩

/-- C3 (amended): during `GofilePathInfo.resolve`, an empty segment always
means "stay at the current node with the remaining path", and an empty or
`.` *entire remaining path* terminates resolution at the current info.  (A
`.` segment followed by more path is instead looked up as a literal child
name — see the counterexample.) -/
theorem C3_empty_segment_and_terminal_dot_stay (env : Env) (c : Option Content)
    (rest : List Char) :
    resolveInfo env c (sep :: rest) = resolveInfo env c rest ∧
    resolveInfo env c ['.'] = .ok (.info c) ∧
    resolveInfo env c [] = .ok (.info c) := by
  refine ⟨?_, ?_, ?_⟩
  · rw [resolveInfo.eq_def]
    have h1 : ¬(sep :: rest = [] ∨ sep :: rest = ['.']) := by
      rintro (h | h) <;> simp [sep] at h
    rw [dif_neg h1]
    have h2 : partitionSep (sep :: rest) = ([], rest) := by
      simp [partitionSep]
    rw [h2]
    rfl
  · rw [resolveInfo.eq_def]
    simp
  · rw [resolveInfo.eq_def]
    simp

/-- C3 (counterexample): a `.` segment followed by more path does not mean
"stay at the current node": resolving `"./x"` on a folder that has a child
named `"x"` looks up a child literally named `"."` and yields Missing,
while resolving the continuation `"x"` at the same node finds the child. -/
theorem C3_dot_segment_counterexample :
    resolveInfo envFresh (some folderR) ['.', '/', 'x'] = .ok .missing ∧
    resolveInfo envFresh (some folderR) ['x'] = .ok (.info (some fileX)) ∧
    resolveInfo envFresh (some folderR) ['.', '/', 'x'] ≠
      resolveInfo envFresh (some folderR) ['x'] := by
  have e1 : resolveInfo envFresh (some folderR) ['.', '/', 'x'] = .ok .missing := by
    rw [resolveInfo.eq_def]
    rfl
  have hbase : resolveInfo envFresh (some fileX) [] = .ok (.info (some fileX)) := by
    rw [resolveInfo.eq_def]
    rfl
  have e2 : resolveInfo envFresh (some folderR) ['x'] = .ok (.info (some fileX)) := by
    rw [resolveInfo.eq_def]
    show resolveInfo envFresh (some fileX) [] = .ok (.info (some fileX))
    exact hbase
  refine ⟨e1, e2, ?_⟩
  rw [e1, e2]
  intro h
  exact RInfo.noConfusion (Except.ok.inj h)

/-- C9: on the info resolved for a path, `iterdir` raises
`PathNotFoundError` when the info does not exist and `PathNotADirectoryError`
when it exists but is a File; `__open_reader__` raises `PathNotFoundError`
when the info does not exist and `PathNotAFileError` when it exists but is
not a File; the existence check precedes the kind check and each raised
error carries the offending path. -/
theorem C9_iterdir_open_reader_errors (env : Env) (path : List Char) (i : RInfo) :
    (∀ i1, rexists env i = .ok (false, i1) →
      iterdir env path i = .error (.pathNotFound path) ∧
      open_reader env path i = .error (.pathNotFound path)) ∧
    (∀ c, rexists env i = .ok (true, .info (some c)) →
      (c.kind = .file → iterdir env path i = .error (.pathNotADirectory path)) ∧
      (c.kind = .folder → open_reader env path i = .error (.pathNotAFile path))) := by
  constructor
  · intro i1 h
    constructor
    · unfold iterdir
      rw [h]
      rfl
    · unfold open_reader
      rw [h]
      rfl
  · intro c h
    cases i with
    | missing => simp [rexists] at h
    | info c0 =>
      cases hu : ensure_updated env c0 with
      | error e =>
        simp [rexists, info_exists, hu, Bind.bind, Except.bind, Except.map] at h
      | ok c' =>
        have h' : c'.isSome = true ∧ RInfo.info c' = RInfo.info (some c) := by
          simpa [rexists, info_exists, hu, Bind.bind, Except.bind, Pure.pure,
            Except.pure, Except.map] using h
        obtain ⟨-, hc⟩ := h'
        obtain rfl : c' = some c := by injection hc
        have hidem : ensure_updated env (some c) = .ok (some c) :=
          ensure_updated_idem hu
        constructor
        · intro hkind
          unfold iterdir
          rw [h]
          show (do
            let (d, i2) ← liftApi (ris_dir env (.info (some c)))
            if !d then throw (.pathNotADirectory path)
            match i2 with
            | .info cc => do
              let r ← liftApi (children_names env cc)
              pure (r.1.getD [])
            | .missing => throw (.pathNotADirectory path) :
              Except PathErr (List String)) = .error (.pathNotADirectory path)
          have hd : ris_dir env (.info (some c)) =
              .ok (is_dir_answer (some c), .info (some c)) := by
            simp [ris_dir, info_is_dir, hidem, Bind.bind, Except.bind, Pure.pure,
              Except.pure, Except.map]
          rw [hd]
          have ha : is_dir_answer (some c) = false := by
            simp [is_dir_answer, hkind]
          rw [ha]
          rfl
        · intro hkind
          unfold open_reader
          rw [h]
          show (match RInfo.info (some c) with
            | .info (some cc) =>
              if cc.kind = .file then pure cc
              else throw (.pathNotAFile path)
            | _ => throw (.pathNotAFile path) : Except PathErr Content) =
            .error (.pathNotAFile path)
          have hk : ¬ c.kind = Kind.file := by
            rw [hkind]
            intro hh
            exact Kind.noConfusion hh
          show (if c.kind = Kind.file then pure c
            else throw (.pathNotAFile path) : Except PathErr Content) =
            .error (.pathNotAFile path)
          rw [if_neg hk]
          rfl

/-- Witness for C9 at concrete inputs: a missing info makes both operations
raise not-found; an existing file makes `iterdir` raise not-a-directory; an
existing folder makes `__open_reader__` raise not-a-file; each error carries
the path. -/
theorem C9_iterdir_open_reader_errors_witness :
    iterdir envFresh ['/', 'm'] .missing = .error (.pathNotFound ['/', 'm']) ∧
    open_reader envFresh ['/', 'm'] .missing = .error (.pathNotFound ['/', 'm']) ∧
    iterdir envFresh ['/', 'x'] (.info (some fileX)) =
      .error (.pathNotADirectory ['/', 'x']) ∧
    open_reader envFresh ['/', 'r'] (.info (some folderR)) =
      .error (.pathNotAFile ['/', 'r']) := by
  have h1 := (C9_iterdir_open_reader_errors envFresh ['/', 'm'] .missing).1
    .missing rfl
  have h2 := (C9_iterdir_open_reader_errors envFresh ['/', 'x']
    (.info (some fileX))).2 fileX rfl
  have h3 := (C9_iterdir_open_reader_errors envFresh ['/', 'r']
    (.info (some folderR))).2 folderR rfl
  exact ⟨h1.1, h1.2, h2.1 rfl, h3.2 rfl⟩

/-- C8: a `GofilePath` built from no segments, from only empty-string
segments, or from segments each consisting only of `.` components (any
mixture of such segments) has normalized string form (`__vfspath__`) equal
to the current-directory marker `'.'`. -/
theorem C8_trivial_segments_vfspath (segs : List (List Char))
    (h : ∀ s ∈ segs, s = [] ∨ ∀ c ∈ splitOnSep s, c = ['.']) :
    vfspathF segs = ['.'] := by
  cases segs with
  | nil => rfl
  | cons a rest =>
    have hT : TrivPath (pjoinAcc a rest) :=
      trivPath_pjoinAcc (trivPath_of_seg (h a (by simp)))
        rest (fun s hs => h s (by simp [hs]))
    have hsplit := splitroot_not_abs hT.2
    have hfilter : (splitOnSep (pjoinAcc a rest)).filter
        (fun x => !decide (x = []) && !decide (x = ['.'])) = [] := by
      rw [List.filter_eq_nil_iff]
      intro c hc
      rcases hT.1 c hc with rfl | rfl <;> simp
    by_cases hnil : pjoinAcc a rest = []
    · simp only [vfspathF, joined_segments]
      rw [if_pos hnil]
    · simp only [vfspathF, joined_segments]
      rw [if_neg hnil, hsplit]
      simp [hfilter, joinComps]

/-- C7 (amended): `resolveAbsolute` is idempotent on every path whose fully
normalized textual form does not begin with a `..` component: applying
`GofilePath.resolve` to the result of `GofilePath.resolve` yields a path
whose string form (`__vfspath__`) equals that of a single application.
(Rooting a relative path that normalizes to a leading `..` lets the second
normalization collapse that `..`, so idempotence fails there — see the
counterexample.) -/
theorem C7_resolve_idempotent_amended (segs : List (List Char))
    (h : (splitOnSep (normpath (vfspathF segs))).head? ≠ some ['.', '.']) :
    vfspathF [resolveF [resolveF segs]] = vfspathF [resolveF segs] := by
  rcases resolveF_char segs h with hg | he
  · rw [resolveF_goodAbs_fix hg]
  · rw [he]
    rfl

/-- Witness for C7 at a concrete input: the path built from the single
segment `"a"` normalizes without a leading `..`, and the string forms of the
single and the double application agree (both are `"/a"`). -/
theorem C7_resolve_idempotent_amended_witness :
    vfspathF [resolveF [resolveF [['a']]]] = vfspathF [resolveF [['a']]] ∧
    vfspathF [resolveF [['a']]] = ['/', 'a'] :=
  ⟨C7_resolve_idempotent_amended [['a']] (by decide), rfl⟩

/-- C7 (counterexample): `resolveAbsolute` is not idempotent for all path
values.  For the path built from the single segment `".."`, a single
application has string form `"/.."` but a second application collapses it to
`"/"`: `normpath` keeps a leading `..` on a relative path, `resolve` then
roots the string, and the second `normpath` eliminates the now-absolute
leading `..`. -/
theorem C7_resolve_not_idempotent_counterexample :
    vfspathF [resolveF [resolveF [['.', '.']]]] = ['/'] ∧
    vfspathF [resolveF [['.', '.']]] = ['/', '.', '.'] ∧
    vfspathF [resolveF [resolveF [['.', '.']]]] ≠
      vfspathF [resolveF [['.', '.']]] :=
  ⟨rfl, rfl, by decide⟩

/-- Witness for C8 at concrete inputs: the empty path, a path of two empty
segments, and a path of `.`-only segments all normalize to `'.'`. -/
theorem C8_trivial_segments_vfspath_witness :
    vfspathF [] = ['.'] ∧ vfspathF [[], []] = ['.'] ∧
    vfspathF [['.'], ['.', '/', '.']] = ['.'] :=
  ⟨C8_trivial_segments_vfspath [] (by decide),
   C8_trivial_segments_vfspath [[], []] (by decide),
   C8_trivial_segments_vfspath [['.'], ['.', '/', '.']] (by decide)⟩

/-- Witness for C5 at concrete inputs: the evaluated listing of the
duplicate-name folder satisfies the strict order, and two opposite
enumerations of the name set `{"a", "b"}` produce the same output. -/
theorem C5_get_children_order_deterministic_witness :
    List.Pairwise FoldersFirstThenName [fileA1] ∧
    select_by_names [fileA1, folderA2] ["b", "a"] =
      select_by_names [fileA1, folderA2] ["a", "b"] := by
  have h := C5_get_children_order_deterministic envFresh rootAB
  refine ⟨h.1 [fileA1] rfl,
    h.2 [fileA1, folderA2] ["b", "a"] ["a", "b"] (by decide) (by decide) ?_⟩
  intro n
  simp only [List.mem_cons, List.not_mem_nil, or_false]
  tauto

end Gofile
